import Mathlib

/-!
Verification of the MeiliDB query-enhancer and raw-document builder
(`meilidb-core/src/query_enhancer.rs`, `meilidb-core/src/raw_document.rs`).

Machine integers (`usize`) are modelled as `Nat`; Rust's
`saturating_sub` and the (never-underflowing, see `declare_total`)
`usize` subtractions coincide with truncated `Nat` subtraction.
Fallible operations (indexing, `expect`) return `Option`.
-/

namespace MeiliDB

/-- Half-open index range `start..stop`, mirroring Rust's `Range<usize>`. -/
structure NRange where
  start : Nat
  stop : Nat
deriving DecidableEq, Repr

/-- `ExactSizeIterator::len` of a `Range<usize>`: `stop - start`, 0 when reversed. -/
def NRange.len (r : NRange) : Nat := r.stop - r.start

/-- Containment of a point in a half-open range. -/
def NRange.containsIdx (r : NRange) (i : Nat) : Bool := decide (r.start ≤ i) && decide (i < r.stop)

/-- Two ranges share no point (either separated or one of them is empty). -/
def NRange.disjoint (r s : NRange) : Bool :=
  decide (r.stop ≤ s.start) || decide (s.stop ≤ r.start) || decide (r.stop ≤ r.start) || decide (s.stop ≤ s.start)

/-- Element-wise equality of two word sequences, mirroring `Iterator::eq`
over the `AsRef<str>`-converted items in `rewrite_range_with`. -/
def iterEq [DecidableEq α] : List α → List α → Bool
  | [], [] => true
  | a :: as, b :: bs => decide (a = b) && iterEq as bs
  | _, _ => false

/-- `rewrite_range_with` (query_enhancer.rs:37-54): `true` iff the range can
accept the replacement words: more words than the range length, and the words
are not already present at `range.start` in the original query.
`query.iter().skip(range.start).take(words.len())` is `(query.drop _).take _`. -/
def rewrite_range_with [DecidableEq α] (query : List α) (range : NRange) (words : List α) : Bool :=
  if words.length ≤ range.len then false
  else
    let original := (query.drop range.start).take words.length
    !(iterEq original words)

/-- `QueryEnhancerBuilder` (query_enhancer.rs:56-60). The query is generic over
`S: AsRef<str>`; we model the words as an arbitrary type with decidable equality. -/
structure QueryEnhancerBuilder (α : Type) where
  query : List α
  origins : List Nat
  real_to_origin : List (NRange × Nat)
deriving Repr

/-- `QueryEnhancerBuilder::new` (query_enhancer.rs:63-69): identity origins and
identity real-to-origin ranges. -/
def QueryEnhancerBuilder.new (query : List α) : QueryEnhancerBuilder α :=
  let origins := List.range query.length
  { query := query
    origins := origins
    real_to_origin := origins.map (fun o => (⟨o, o + 1⟩, o)) }

/-- The loop body of `declare` (query_enhancer.rs:85-89):
`for (o, r) in origins.iter_mut().enumerate().skip(stop) { *r += offset.saturating_sub(*r - o) }`.
`o` is the running index of the entry (the caller passes 0). -/
def shiftOrigins (offset stop : Nat) : Nat → List Nat → List Nat
  | _, [] => []
  | o, r :: rs =>
    (if stop ≤ o then r + (offset - (r - o)) else r) :: shiftOrigins offset stop (o + 1) rs

/-- `QueryEnhancerBuilder::declare` (query_enhancer.rs:75-97). -/
def QueryEnhancerBuilder.declare [DecidableEq α] (b : QueryEnhancerBuilder α)
    (range : NRange) (real : Nat) (replacement : List α) : QueryEnhancerBuilder α :=
  let origins :=
    if rewrite_range_with b.query range replacement then
      shiftOrigins (replacement.length - range.len) range.stop 0 b.origins
    else b.origins
  { b with
    origins := origins
    real_to_origin := b.real_to_origin ++ [(⟨real, real + replacement.length⟩, range.start)] }

/-- `QueryEnhancer` (query_enhancer.rs:107-112). The `IntervalTree` is kept as
the list of its elements; the stored ranges are non-overlapping by construction
(the code `debug_assert`s this), so a point query has at most one hit and a
linear scan is a faithful model of `query_point`. -/
structure QueryEnhancer where
  origins : List Nat
  real_to_origin : List (NRange × Nat)
deriving Repr

/-- `QueryEnhancerBuilder::build` (query_enhancer.rs:99-104). -/
def QueryEnhancerBuilder.build (b : QueryEnhancerBuilder α) : QueryEnhancer :=
  { origins := b.origins, real_to_origin := b.real_to_origin }

/-- `QueryEnhancer::replacement` (query_enhancer.rs:116-148). `query_point`
yields the element whose range contains `real` (`none` models the
`expect("real has never been declared")` panic, and an out-of-bounds
`self.origins[origin]` panic). -/
def QueryEnhancer.replacement (e : QueryEnhancer) (real : Nat) : Option NRange :=
  match e.real_to_origin.find? (fun p => p.1.containsIdx real) with
  | none => none
  | some (range, origin) =>
    match e.origins[origin]? with
    | none => none
    | some og =>
      if range.stop = real then
        some ⟨origin + (real - range.start), origin + (og - origin) + 1⟩
      else
        some ⟨og + (real - range.start), og + (real - range.start) + 1⟩

/-- One `declare` call: the original-words range, the first real index of the
replacement words, and the replacement words themselves. -/
structure Declaration (α : Type) where
  range : NRange
  real : Nat
  repl : List α
deriving Repr

/-- A `QueryEnhancer` built from a query by a sequence of `declare` calls. -/
def buildDecls [DecidableEq α] (query : List α) (decls : List (Declaration α)) : QueryEnhancer :=
  (decls.foldl (fun b d => b.declare d.range d.real d.repl) (QueryEnhancerBuilder.new query)).build

/-! ## Raw documents (`raw_document.rs`) -/

/-- Modelled from the spec: `DocumentId` — "opaque 64-bit identifier, totally
ordered, assigned externally" (its declaration lives outside `src/`). -/
abbrev DocumentId := Nat

/-- Modelled from the spec: `TmpMatch` per-occurrence match record with fields
`query_index: u32`, `distance: u8`, `attribute: u16`, `word_index: u16`,
`is_exact: bool` (its declaration lives outside `src/`); no arithmetic is done
on the numeric fields so `Nat` models them faithfully. -/
structure TmpMatch where
  query_index : Nat
  distance : Nat
  attr : Nat
  word_index : Nat
  is_exact : Bool
deriving DecidableEq, Repr

/-- Modelled from the spec: `Highlight` — byte-range span `{attribute,
char_index, char_length}` within a field (declaration outside `src/`). -/
structure Highlight where
  attr : Nat
  char_index : Nat
  char_length : Nat
deriving DecidableEq, Repr

/-- `RawDocument` (raw_document.rs:15-26); the `SmallVec32` columns are lists. -/
structure RawDocument where
  id : DocumentId
  query_index : List Nat
  distance : List Nat
  attr : List Nat
  word_index : List Nat
  is_exact : List Bool
  highlights : List Highlight
deriving DecidableEq, Repr

/-- Specification of `par_sort_unstable_by_key(|x| key x)`: the output is some
permutation of the input that is sorted by the key.  The sort is *unstable*, so
any such permutation is an admissible result; no further property is promised. -/
def sort_unstable_spec (key : α → κ) [LinearOrder κ] (input output : List α) : Prop :=
  output.Perm input ∧ output.Pairwise (fun a b => key a ≤ key b)

/-- `slice_group_by::linear_group_by_key`: splits a slice into maximal runs of
adjacent elements with equal keys (never yields an empty group).  Written with
structural recursion (merge the head into the first group of the tail when the
keys agree); `linear_group_by_key_cons` shows this equals the take-run/drop-run
formulation. -/
def linear_group_by_key [DecidableEq κ] (key : α → κ) : List α → List (List α)
  | [] => []
  | x :: xs =>
    match linear_group_by_key key xs with
    | [] => [[x]]
    | (y :: g) :: rest =>
      if key x == key y then (x :: y :: g) :: rest else [x] :: (y :: g) :: rest
    | [] :: rest => [[x]] ++ [] :: rest

/-- The per-group body of the loop in `raw_documents_from` (raw_document.rs:70-105):
`id` is the first tuple's document id (`None` is never hit: groups are
non-empty), the five columns are pushed in group order, highlights are copied. -/
def buildRawDocument (mgroup : List (DocumentId × TmpMatch))
    (hgroup : List (DocumentId × Highlight)) : RawDocument :=
  { id := ((mgroup.head?).map Prod.fst).getD 0
    query_index := mgroup.map (fun p => p.2.query_index)
    distance := mgroup.map (fun p => p.2.distance)
    attr := mgroup.map (fun p => p.2.attr)
    word_index := mgroup.map (fun p => p.2.word_index)
    is_exact := mgroup.map (fun p => p.2.is_exact)
    highlights := hgroup.map Prod.snd }

/-- The deterministic part of `raw_documents_from` (raw_document.rs:63-107),
taking the two streams *after* they have been sorted by `DocumentId`:
group both by id and zip the groups (`zip` stops at the shorter side, as the
Rust `zip` does). -/
def raw_documents_from_sorted («matches» : List (DocumentId × TmpMatch))
    (highlights : List (DocumentId × Highlight)) : List RawDocument :=
  let mgroups := linear_group_by_key Prod.fst «matches»
  let hgroups := linear_group_by_key Prod.fst highlights
  (mgroups.zip hgroups).map (fun g => buildRawDocument g.1 g.2)

/-- `raw_documents_from` (raw_document.rs:50-108) as a relation: the two
`par_sort_unstable_by_key` calls are nondeterministic, so `out` is a possible
result iff it arises from some admissible sorting of the two inputs. -/
def raw_documents_from_rel («matches» : List (DocumentId × TmpMatch))
    (highlights : List (DocumentId × Highlight)) (out : List RawDocument) : Prop :=
  ∃ ms hs, sort_unstable_spec Prod.fst «matches» ms
    ∧ sort_unstable_spec Prod.fst highlights hs
    ∧ out = raw_documents_from_sorted ms hs

/-- `permutations_unstable_by_key` (raw_document.rs:110-117) as a relation:
`perm` is an admissible result iff it is `(0..len).collect()` re-ordered by
`sort_unstable_by_key(|&i| f(i))`. -/
def permutations_unstable_by_key_spec (len : Nat) (f : Nat → κ) [LinearOrder κ]
    (perm : List Nat) : Prop :=
  sort_unstable_spec f (List.range len) perm

/-- `apply_permutations` (raw_document.rs:122-133): push `vec[i].clone()` for
each `i` of the permutation; `none` models the out-of-bounds indexing panic. -/
def apply_permutations (perm : List Nat) (vec : List α) : Option (List α) :=
  match perm with
  | [] => some []
  | i :: is =>
    match vec[i]?, apply_permutations is vec with
    | some x, some rest => some (x :: rest)
    | _, _ => none

/-! ## Basic lemmas -/

theorem iterEq_eq_true_iff [DecidableEq α] :
    ∀ (l₁ l₂ : List α), iterEq l₁ l₂ = true ↔ l₁ = l₂ := by
  intro l₁
  induction l₁ with
  | nil => intro l₂; cases l₂ <;> simp [iterEq]
  | cons a as ih =>
    intro l₂
    cases l₂ with
    | nil => simp [iterEq]
    | cons b bs => simp [iterEq, ih bs]

theorem shiftOrigins_length (offset stop : Nat) :
    ∀ (i : Nat) (l : List Nat), (shiftOrigins offset stop i l).length = l.length := by
  intro i l
  induction l generalizing i with
  | nil => rfl
  | cons r rs ih => simp [shiftOrigins, ih]

theorem shiftOrigins_getElem? (offset stop : Nat) :
    ∀ (i p : Nat) (l : List Nat),
      (shiftOrigins offset stop i l)[p]? =
        (l[p]?).map (fun r => if stop ≤ i + p then r + (offset - (r - (i + p))) else r) := by
  intro i p l
  induction l generalizing i p with
  | nil => simp [shiftOrigins]
  | cons r rs ih =>
    cases p with
    | zero => simp [shiftOrigins]
    | succ p =>
      simp only [shiftOrigins, List.getElem?_cons_succ, ih (i + 1) p]
      have harith : i + 1 + p = i + (p + 1) := by omega
      rw [harith]

/-! ## C5: the rewrite predicate -/

/-- **C5.** `rewrite_range_with` accepts a rule iff the replacement has strictly
more words than the replaced range and the replacement words are not
element-wise equal to the `m` consecutive original query words at `range.start`. -/
theorem rewrite_range_with_iff (query : List String) (range : NRange) (words : List String) :
    rewrite_range_with query range words = true ↔
      range.len < words.length ∧ words ≠ (query.drop range.start).take words.length := by
  unfold rewrite_range_with
  split
  · next h =>
    simp only [Bool.false_eq_true, false_iff, not_and]
    intro hlt
    omega
  · next h =>
    simp only [Bool.not_eq_true', ← Bool.not_eq_true (iterEq _ _), iterEq_eq_true_iff]
    constructor
    · intro hne
      exact ⟨by omega, fun hw => hne hw.symm⟩
    · intro ⟨_, hne⟩ heq
      exact hne heq.symm

/-! ## C4: what one `declare` call does -/

/-- **C4.** One `declare(range, real, replacement)` call always appends the
mapping `[real, real+m) → range.start`; if the rewrite predicate rejects, the
origins are untouched; if it accepts, each `origins[p]` with `p ≥ range.stop`
becomes `origins[p] + (offset − (origins[p] − p))` (truncated subtraction,
`offset = m − range.len`), and no entry ever decreases. -/
theorem declare_spec (b : QueryEnhancerBuilder String) (range : NRange) (real : Nat)
    (repl : List String) :
    (b.declare range real repl).real_to_origin
        = b.real_to_origin ++ [(⟨real, real + repl.length⟩, range.start)]
    ∧ (rewrite_range_with b.query range repl = false →
        (b.declare range real repl).origins = b.origins)
    ∧ (rewrite_range_with b.query range repl = true →
        ∀ (p og : Nat), b.origins[p]? = some og →
          (b.declare range real repl).origins[p]? =
            some (if range.stop ≤ p then og + ((repl.length - range.len) - (og - p)) else og))
    ∧ (∀ (p og og' : Nat), b.origins[p]? = some og →
        (b.declare range real repl).origins[p]? = some og' → og ≤ og') := by
  refine ⟨rfl, ?_, ?_, ?_⟩
  · intro hfalse
    simp [QueryEnhancerBuilder.declare, hfalse]
  · intro htrue p og hog
    simp [QueryEnhancerBuilder.declare, htrue, shiftOrigins_getElem?, hog]
  · intro p og og' hog hog'
    unfold QueryEnhancerBuilder.declare at hog'
    by_cases hrw : rewrite_range_with b.query range repl = true
    · simp only [hrw, if_true, shiftOrigins_getElem?, hog, Option.map_some',
        Option.some.injEq] at hog'
      split at hog' <;> omega
    · simp only [Bool.not_eq_true] at hrw
      simp only [hrw, Bool.false_eq_true, if_false, hog, Option.some.injEq] at hog'
      omega

/-- Closed instance of `declare_spec` at the `bigger_growing` scenario of the
Rust tests: `origins[1]` becomes `3` after declaring `NYC → new york city`. -/
theorem declare_spec_witness :
    (QueryEnhancerBuilder.new ["NYC", "subway"]).origins[1]? = some 1
    ∧ ((QueryEnhancerBuilder.new ["NYC", "subway"]).declare ⟨0, 1⟩ 2
        ["new", "york", "city"]).origins[1]? = some 3 := by
  refine ⟨by decide, ?_⟩
  have h := (declare_spec (QueryEnhancerBuilder.new ["NYC", "subway"]) ⟨0, 1⟩ 2
    ["new", "york", "city"]).2.2.1 (by decide) 1 1 (by decide)
  simpa using h

/-! ## C10: totality of `declare` (no `usize` underflow) -/

/-- Every stored origin is at least its own position: this is the invariant
making the `*r - o` subtraction in `declare` safe. -/
def originsInv (l : List Nat) : Prop := ∀ (p og : Nat), l[p]? = some og → p ≤ og

theorem originsInv_new (query : List α) :
    originsInv (QueryEnhancerBuilder.new query).origins := by
  intro p og h
  have : (List.range query.length)[p]? = some og := h
  rcases Nat.lt_or_ge p query.length with hp | hp
  · rw [List.getElem?_range hp] at this
    simp only [Option.some.injEq] at this
    omega
  · rw [List.getElem?_eq_none (by simpa using hp)] at this
    exact absurd this (by simp)

theorem originsInv_declare [DecidableEq α] (b : QueryEnhancerBuilder α) (range : NRange)
    (real : Nat) (repl : List α) (h : originsInv b.origins) :
    originsInv (b.declare range real repl).origins := by
  intro p og hog
  unfold QueryEnhancerBuilder.declare at hog
  by_cases hrw : rewrite_range_with b.query range repl = true
  · simp only [hrw, if_true, shiftOrigins_getElem?] at hog
    cases hb : b.origins[p]? with
    | none => rw [hb] at hog; exact absurd hog (by simp)
    | some r =>
      rw [hb] at hog
      simp only [Option.map_some', Option.some.injEq] at hog
      have := h p r hb
      split at hog <;> omega
  · simp only [Bool.not_eq_true] at hrw
    simp only [hrw, Bool.false_eq_true, if_false] at hog
    exact h p og hog

/-- **C10.** `declare` is total: after any sequence of `declare` calls starting
from `new`, every origins entry satisfies `p ≤ origins[p]` (so the source's
`origins[p] - p` never underflows), and the `replacement.len() - range.len()`
subtraction is only reached when the rewrite predicate has established
`range.len() < replacement.len()`. -/
theorem declare_total (query : List String) (decls : List (Declaration String)) :
    originsInv (buildDecls query decls).origins
    ∧ ∀ (range : NRange) (repl : List String),
        rewrite_range_with query range repl = true → range.len < repl.length := by
  constructor
  · have hfold : ∀ (ds : List (Declaration String)) (b : QueryEnhancerBuilder String),
        originsInv b.origins →
        originsInv ((ds.foldl (fun b d => b.declare d.range d.real d.repl) b)).origins := by
      intro ds
      induction ds with
      | nil => intro b hb; exact hb
      | cons d ds ih =>
        intro b hb
        exact ih _ (originsInv_declare b d.range d.real d.repl hb)
    exact hfold decls _ (originsInv_new query)
  · intro range repl h
    exact ((rewrite_range_with_iff query range repl).mp h).1

/-- Closed instance of `declare_total` at the `bigger_growing` scenario. -/
theorem declare_total_witness :
    (buildDecls ["NYC", "subway"] [⟨⟨0, 1⟩, 2, ["new", "york", "city"]⟩]).origins[1]? = some 3
    ∧ 1 ≤ 3 := by
  refine ⟨by decide, ?_⟩
  exact (declare_total ["NYC", "subway"] [⟨⟨0, 1⟩, 2, ["new", "york", "city"]⟩]).1 1 3 (by decide)

/-! ## Structure of a built enhancer -/

/-- The stored real ranges are pairwise disjoint (the invariant the code
`debug_assert`s in `replacement`). -/
def pairwiseDisjoint (l : List (NRange × Nat)) : Prop :=
  l.Pairwise (fun a b => a.1.disjoint b.1 = true)

instance (l : List (NRange × Nat)) : Decidable (pairwiseDisjoint l) :=
  inferInstanceAs (Decidable (l.Pairwise _))

theorem NRange.disjoint_not_both {r s : NRange} (h : r.disjoint s = true) (i : Nat) :
    ¬(r.containsIdx i = true ∧ s.containsIdx i = true) := by
  simp only [NRange.disjoint, NRange.containsIdx, Bool.or_eq_true, Bool.and_eq_true,
    decide_eq_true_eq] at *
  omega

/-- With pairwise-disjoint stored ranges, a linear scan finds exactly the
member element whose range contains the point. -/
theorem find?_containsIdx_of_disjoint :
    ∀ (l : List (NRange × Nat)), pairwiseDisjoint l →
      ∀ (R : NRange) (o r : Nat), (R, o) ∈ l → R.containsIdx r = true →
        l.find? (fun p => p.1.containsIdx r) = some (R, o) := by
  intro l
  induction l with
  | nil =>
    intro _ R o r hmem
    exact absurd hmem (List.not_mem_nil _)
  | cons a l ih =>
    intro hp R o r hmem hcon
    rcases List.pairwise_cons.mp hp with ⟨ha, hp'⟩
    rcases List.mem_cons.mp hmem with heq | hmem'
    · subst heq
      exact List.find?_cons_of_pos _ hcon
    · by_cases hc : a.1.containsIdx r = true
      · exact absurd ⟨hc, hcon⟩ (NRange.disjoint_not_both (ha _ hmem') r)
      · rw [List.find?_cons_of_neg _ (by simpa using hc)]
        exact ih hp' R o r hmem' hcon

theorem foldl_declare_real_to_origin [DecidableEq α] (ds : List (Declaration α)) :
    ∀ (b : QueryEnhancerBuilder α),
      (ds.foldl (fun b d => b.declare d.range d.real d.repl) b).real_to_origin
        = b.real_to_origin
          ++ ds.map (fun d => (⟨d.real, d.real + d.repl.length⟩, d.range.start)) := by
  induction ds with
  | nil => intro b; simp
  | cons d ds ih =>
    intro b
    rw [List.foldl_cons, ih]
    simp [QueryEnhancerBuilder.declare]

theorem buildDecls_real_to_origin [DecidableEq α] (query : List α)
    (decls : List (Declaration α)) :
    (buildDecls query decls).real_to_origin
      = (List.range query.length).map (fun o => ((⟨o, o + 1⟩ : NRange), o))
        ++ decls.map (fun d => (⟨d.real, d.real + d.repl.length⟩, d.range.start)) := by
  unfold buildDecls
  rw [show ∀ b : QueryEnhancerBuilder α, b.build.real_to_origin = b.real_to_origin from fun _ => rfl,
    foldl_declare_real_to_origin]
  rfl

theorem foldl_declare_origins_length [DecidableEq α] (ds : List (Declaration α)) :
    ∀ (b : QueryEnhancerBuilder α),
      (ds.foldl (fun b d => b.declare d.range d.real d.repl) b).origins.length
        = b.origins.length := by
  induction ds with
  | nil => intro b; rfl
  | cons d ds ih =>
    intro b
    rw [List.foldl_cons, ih]
    unfold QueryEnhancerBuilder.declare
    split <;> simp [shiftOrigins_length]

theorem buildDecls_origins_length [DecidableEq α] (query : List α)
    (decls : List (Declaration α)) :
    (buildDecls query decls).origins.length = query.length := by
  unfold buildDecls
  rw [show ∀ b : QueryEnhancerBuilder α, b.build.origins = b.origins from fun _ => rfl,
    foldl_declare_origins_length]
  simp [QueryEnhancerBuilder.new]

/-- The `bigger_growing` scenario of the Rust tests: query `["NYC","subway"]`
with the single accepted declaration `NYC → new york city` at real index 2. -/
def biggerGrowing : QueryEnhancer :=
  buildDecls ["NYC", "subway"] [⟨⟨0, 1⟩, 2, ["new", "york", "city"]⟩]

/-! ## C1: what `replacement` returns on a contained real index -/

/-- **C1 fails as stated.** In `biggerGrowing` the real index 4 is the last
real slot of the declared range `[2,5) → 0` (`n' = 4 − 2 = 2`, `origin = 0`,
`padding = origins[0] − 0 = 0`), and all stored ranges are pairwise disjoint,
yet `replacement(4)` is `[2,3)`, not the claimed
`[origin + n', origin + padding + 1) = [2,1)`: the code's last-slot branch
tests `range.end == real`, which never holds for a range containing `real`. -/
theorem replacement_last_slot_cex :
    pairwiseDisjoint biggerGrowing.real_to_origin
    ∧ ((⟨2, 5⟩ : NRange), 0) ∈ biggerGrowing.real_to_origin
    ∧ biggerGrowing.origins[0]? = some 0
    ∧ biggerGrowing.replacement 4 = some ⟨2, 3⟩
    ∧ biggerGrowing.replacement 4 ≠ some ⟨0 + (4 - 2), 0 + (0 - 0) + 1⟩ := by
  decide

/-- **C1 (amended).** For an enhancer built from any query and declarations
with pairwise-disjoint stored ranges, *every* real index `r` contained in a
stored range `(R, origin)` — the last real slot included — is replaced by
`[origins[origin] + n', origins[origin] + n' + 1)` where `n' = r − R.start`;
the spec's last-slot `padding` formula is the unreachable `range.end == real`
branch. -/
theorem replacement_eq (query : List String) (decls : List (Declaration String))
    (hdisj : pairwiseDisjoint (buildDecls query decls).real_to_origin)
    (R : NRange) (o r og : Nat)
    (hmem : (R, o) ∈ (buildDecls query decls).real_to_origin)
    (h1 : R.start ≤ r) (h2 : r < R.stop)
    (hog : (buildDecls query decls).origins[o]? = some og) :
    (buildDecls query decls).replacement r
      = some ⟨og + (r - R.start), og + (r - R.start) + 1⟩ := by
  unfold QueryEnhancer.replacement
  rw [find?_containsIdx_of_disjoint _ hdisj R o r hmem
    (by simp only [NRange.containsIdx, Bool.and_eq_true, decide_eq_true_eq]; omega)]
  simp only [hog]
  rw [if_neg (by omega)]

/-- Closed instance of `replacement_eq`: real index 3 of `biggerGrowing` sits
in the declared range `[2,5) → 0` and is replaced by `[1,2)`. -/
theorem replacement_eq_witness : biggerGrowing.replacement 3 = some ⟨1, 2⟩ := by
  have h := replacement_eq ["NYC", "subway"] [⟨⟨0, 1⟩, 2, ["new", "york", "city"]⟩]
    (by decide) ⟨2, 5⟩ 0 3 0 (by decide) (by decide) (by decide) (by decide)
  simpa [biggerGrowing] using h

/-! ## C2: the round-trip law for a single accepted declaration -/

/-- No identity entry `[j, j+1) → j` (`j < n`) contains a real index `r ≥ n`. -/
theorem find?_identity_none (n r : Nat) (hn : n ≤ r) :
    ((List.range n).map (fun o => ((⟨o, o + 1⟩ : NRange), o))).find?
      (fun p => p.1.containsIdx r) = none := by
  apply List.find?_eq_none.mpr
  intro x hx
  rcases List.mem_map.mp hx with ⟨o, ho, rfl⟩
  have : o < n := List.mem_range.mp ho
  simp only [NRange.containsIdx, Bool.and_eq_true, decide_eq_true_eq, not_and]
  omega

/-- **C2 fails as stated.** Query `["NYC","subway"]` with the single accepted
declaration `(0..1, 2, ["new","york","city"])` (`k = 1`, `m = 3`): taking
`i = 2 ∈ [0, m−1]` gives `replacement(real + 2) = [2,3)`, and its index 2 does
not fall within `[o, o+k] = [0,1]` — the expansion projects onto `m` original
slots, not `k+1`. -/
theorem round_trip_cex :
    rewrite_range_with ["NYC", "subway"] ⟨0, 1⟩ ["new", "york", "city"] = true
    ∧ (2 : Nat) < 3
    ∧ biggerGrowing.replacement (2 + 2) = some ⟨2, 3⟩
    ∧ ¬((2 : Nat) ≤ 0 + 1) := by
  decide

/-- **C2 (amended).** For a fresh builder over `query` (`n` tokens) and a single
accepted declaration `(o..o+k, real, repl)` with `0 < k`, `o + k ≤ n ≤ real` and
`m = |repl|`: `replacement(real + i) = [o + i, o + i + 1)` for every `i < m`,
and the union of these ranges covers exactly the interval `[o, o + m)` (which
equals the claimed `[o, o+k]` precisely when `m = k + 1`). -/
theorem round_trip (query : List String) (o k real m : Nat) (repl : List String)
    (hm : repl.length = m)
    (hacc : rewrite_range_with query ⟨o, o + k⟩ repl = true)
    (hk : 0 < k) (hok : o + k ≤ query.length) (hreal : query.length ≤ real) :
    (∀ (i : Nat), i < m →
      (buildDecls query [⟨⟨o, o + k⟩, real, repl⟩]).replacement (real + i)
        = some ⟨o + i, o + i + 1⟩)
    ∧ ∀ (j : Nat),
        (∃ (i : Nat) (rng : NRange), i < m
            ∧ (buildDecls query [⟨⟨o, o + k⟩, real, repl⟩]).replacement (real + i) = some rng
            ∧ rng.containsIdx j = true)
          ↔ (o ≤ j ∧ j < o + m) := by
  have hmain : ∀ (i : Nat), i < m →
      (buildDecls query [⟨⟨o, o + k⟩, real, repl⟩]).replacement (real + i)
        = some ⟨o + i, o + i + 1⟩ := by
    intro i hi
    have hfind : (buildDecls query [⟨⟨o, o + k⟩, real, repl⟩]).real_to_origin.find?
        (fun p => p.1.containsIdx (real + i))
        = some (⟨real, real + repl.length⟩, o) := by
      rw [buildDecls_real_to_origin, List.find?_append, find?_identity_none query.length (real + i)
        (by omega), Option.none_or]
      simp only [List.map_cons, List.map_nil]
      apply List.find?_cons_of_pos
      simp only [NRange.containsIdx, Bool.and_eq_true, decide_eq_true_eq]
      omega
    unfold QueryEnhancer.replacement
    rw [hfind]
    have horig : (buildDecls query [⟨⟨o, o + k⟩, real, repl⟩]).origins[o]? = some o := by
      have : (buildDecls query [⟨⟨o, o + k⟩, real, repl⟩]).origins
          = shiftOrigins (repl.length - NRange.len ⟨o, o + k⟩) (o + k) 0
              (List.range query.length) := by
        show (if rewrite_range_with query (⟨o, o + k⟩ : NRange) repl then
            shiftOrigins (repl.length - NRange.len ⟨o, o + k⟩) (o + k) 0
              (List.range query.length)
          else List.range query.length) = _
        rw [if_pos hacc]
      rw [this, shiftOrigins_getElem?, List.getElem?_range (by omega)]
      simp only [Option.map_some', Option.some.injEq]
      rw [if_neg (by omega)]
    simp only [horig]
    rw [if_neg (by omega)]
    simp only [Option.some.injEq, NRange.mk.injEq]
    omega
  refine ⟨hmain, ?_⟩
  intro j
  constructor
  · rintro ⟨i, rng, hi, hrepl, hcon⟩
    rw [hmain i hi] at hrepl
    cases hrepl
    simp only [NRange.containsIdx, Bool.and_eq_true, decide_eq_true_eq] at hcon
    omega
  · rintro ⟨h1, h2⟩
    refine ⟨j - o, ⟨o + (j - o), o + (j - o) + 1⟩, by omega, hmain (j - o) (by omega), ?_⟩
    simp only [NRange.containsIdx, Bool.and_eq_true, decide_eq_true_eq]
    omega

/-- Closed instance of `round_trip` at the `bigger_growing` scenario:
`replacement(2 + 0) = [0,1)`. -/
theorem round_trip_witness :
    (buildDecls ["NYC", "subway"] [⟨⟨0, 1⟩, 2, ["new", "york", "city"]⟩]).replacement 2
      = some ⟨0, 1⟩ := by
  have h := (round_trip ["NYC", "subway"] 0 1 2 3 ["new", "york", "city"] rfl (by decide)
    (by decide) (by decide) (by decide)).1 0 (by decide)
  simpa using h

/-! ## C3: totality of `replacement` on emitted real indices -/

/-- **C3 fails as stated.** In `biggerGrowing` (original query of
`n_original = 2` tokens, disjoint ranges), the original real index `r = 1`
satisfies `replacement(1) = [3,4)`: a non-empty range, but its index 3 is not
`< n_original` — accepted growing expansions shift origins past the original
length. -/
theorem replacement_totality_cex :
    pairwiseDisjoint biggerGrowing.real_to_origin
    ∧ (1 : Nat) < 2
    ∧ biggerGrowing.replacement 1 = some ⟨3, 4⟩
    ∧ ¬(3 < 2) := by
  decide

/-- **C3 (amended).** For an enhancer built from `query` and declarations
whose stored ranges are pairwise disjoint and whose origins lie inside the
query, `replacement(r)` returns a (non-empty) width-1 range `[s, s+1)` for
every `r` that is an original index or lies in a declared real range; its
indices, however, may reach beyond `n_original` once growing expansions have
shifted the origins. -/
theorem replacement_nonempty (query : List String) (decls : List (Declaration String)) (r : Nat)
    (_hdisj : pairwiseDisjoint (buildDecls query decls).real_to_origin)
    (hor : ∀ d ∈ decls, d.range.start < query.length)
    (hr : r < query.length ∨ ∃ d ∈ decls, d.real ≤ r ∧ r < d.real + d.repl.length) :
    ∃ (s : Nat), (buildDecls query decls).replacement r = some ⟨s, s + 1⟩ := by
  have hent := buildDecls_real_to_origin query decls
  have hex : ∃ x ∈ (buildDecls query decls).real_to_origin, x.1.containsIdx r = true := by
    rcases hr with h | ⟨d, hd, h1, h2⟩
    · refine ⟨(⟨r, r + 1⟩, r), ?_, ?_⟩
      · rw [hent]
        exact List.mem_append_left _ (List.mem_map.mpr ⟨r, List.mem_range.mpr h, rfl⟩)
      · simp [NRange.containsIdx]
    · refine ⟨(⟨d.real, d.real + d.repl.length⟩, d.range.start), ?_, ?_⟩
      · rw [hent]
        exact List.mem_append_right _ (List.mem_map.mpr ⟨d, hd, rfl⟩)
      · simp only [NRange.containsIdx, Bool.and_eq_true, decide_eq_true_eq]
        omega
  obtain ⟨x, hxmem, hx⟩ := hex
  have hfind : ∃ y, (buildDecls query decls).real_to_origin.find?
      (fun p => p.1.containsIdx r) = some y := by
    rw [← Option.isSome_iff_exists, List.find?_isSome]
    exact ⟨x, hxmem, hx⟩
  obtain ⟨⟨R, o⟩, hfind⟩ := hfind
  have hymem := List.mem_of_find?_eq_some hfind
  have hycon : R.containsIdx r = true := by
    have := List.find?_some hfind
    simpa using this
  have ho : o < query.length := by
    rw [hent] at hymem
    rcases List.mem_append.mp hymem with h | h
    · rcases List.mem_map.mp h with ⟨j, hj, heq⟩
      have hjo : j = o := congrArg Prod.snd heq
      subst hjo
      exact List.mem_range.mp hj
    · rcases List.mem_map.mp h with ⟨d, hd, heq⟩
      have hdo : d.range.start = o := congrArg Prod.snd heq
      exact hdo ▸ hor d hd
  have hlen : (buildDecls query decls).origins.length = query.length :=
    buildDecls_origins_length query decls
  obtain ⟨og, hog⟩ : ∃ og, (buildDecls query decls).origins[o]? = some og :=
    ⟨_, List.getElem?_eq_getElem (by omega)⟩
  refine ⟨og + (r - R.start), ?_⟩
  unfold QueryEnhancer.replacement
  rw [hfind]
  simp only [hog]
  simp only [NRange.containsIdx, Bool.and_eq_true, decide_eq_true_eq] at hycon
  rw [if_neg (by omega)]

/-- Closed instance of `replacement_nonempty`: the declared real index 4 of
`biggerGrowing` gets the non-empty range `[2, 2+1)`. -/
theorem replacement_nonempty_witness :
    ∃ (s : Nat), biggerGrowing.replacement 4 = some ⟨s, s + 1⟩ :=
  replacement_nonempty ["NYC", "subway"] [⟨⟨0, 1⟩, 2, ["new", "york", "city"]⟩] 4
    (by decide) (by decide)
    (Or.inr ⟨⟨⟨0, 1⟩, 2, ["new", "york", "city"]⟩, List.mem_singleton.mpr rfl, by decide, by decide⟩)

/-! ## C6: the `multiple_probable_growings` scenario -/

/-- The enhancer of the `multiple_probable_growings` Rust test. -/
def multipleGrowings : QueryEnhancer :=
  buildDecls ["great", "awesome", "NYC", "subway"]
    [⟨⟨2, 3⟩, 4, ["new", "york", "city"]⟩,
     ⟨⟨3, 4⟩, 7, ["underground", "train"]⟩,
     ⟨⟨0, 2⟩, 9, ["good"]⟩,
     ⟨⟨1, 3⟩, 10, ["NY"]⟩]

/-- **C6.** The four declarations of `multiple_probable_growings`, applied in
order, give `replacement(3) = 5..6`, `replacement(6) = 4..5`,
`replacement(9) = 0..1` and `replacement(10) = 1..2`. -/
theorem multiple_probable_growings_replacements :
    multipleGrowings.replacement 3 = some ⟨5, 6⟩
    ∧ multipleGrowings.replacement 6 = some ⟨4, 5⟩
    ∧ multipleGrowings.replacement 9 = some ⟨0, 1⟩
    ∧ multipleGrowings.replacement 10 = some ⟨1, 2⟩ := by
  decide

/-! ## Grouping lemmas -/

theorem dropWhile_head_not (p : α → Bool) :
    ∀ (l : List α) (y : α) (d : List α), l.dropWhile p = y :: d → p y = false := by
  intro l
  induction l with
  | nil => intro y d h; exact absurd h (by simp)
  | cons a l ih =>
    intro y d h
    rw [List.dropWhile_cons] at h
    split at h
    · exact ih y d h
    · next hpa =>
      cases h
      simpa using hpa

/-- The structural `linear_group_by_key` computes take-run/drop-run groups. -/
theorem linear_group_by_key_cons [DecidableEq κ] (key : α → κ) :
    ∀ (xs : List α) (x : α),
      linear_group_by_key key (x :: xs)
        = (x :: xs.takeWhile (fun y => key y == key x))
          :: linear_group_by_key key (xs.dropWhile (fun y => key y == key x)) := by
  intro xs
  induction xs with
  | nil => intro x; rfl
  | cons y ys ih =>
    intro x
    show (match linear_group_by_key key (y :: ys) with
      | [] => [[x]]
      | (y :: g) :: rest =>
        if key x == key y then (x :: y :: g) :: rest else [x] :: (y :: g) :: rest
      | [] :: rest => [[x]] ++ [] :: rest) = _
    rw [ih y]
    rw [List.takeWhile_cons, List.dropWhile_cons]
    by_cases hxy : key y = key x
    · have hb1 : (key x == key y) = true := by simpa using hxy.symm
      have hb2 : (key y == key x) = true := by simpa using hxy
      simp only [hb1, if_true, hb2]
      rw [hxy]
    · have hb1 : (key x == key y) = false := by simpa using fun h => hxy h.symm
      have hb2 : (key y == key x) = false := by simpa using hxy
      simp only [hb1, hb2, Bool.false_eq_true, if_false]
      rw [ih y]

theorem linear_group_by_key_ne_nil [DecidableEq κ] (key : α → κ) :
    ∀ (l : List α) (g : List α), g ∈ linear_group_by_key key l → g ≠ [] := by
  intro l
  induction l with
  | nil => intro g hg; exact absurd hg (by simp [linear_group_by_key])
  | cons x xs ih =>
    intro g hg
    unfold linear_group_by_key at hg
    split at hg
    · simp only [List.mem_singleton] at hg
      simp [hg]
    · rename_i y g₀ rest heq
      split at hg
      · rcases List.mem_cons.mp hg with rfl | hgrest
        · simp
        · exact ih g (heq ▸ List.mem_cons_of_mem _ hgrest)
      · rcases List.mem_cons.mp hg with rfl | hg'
        · simp
        · rcases List.mem_cons.mp hg' with rfl | hgrest
          · simp
          · exact ih g (heq ▸ List.mem_cons_of_mem _ hgrest)
    · rename_i rest heq
      exact absurd rfl (ih [] (heq ▸ List.mem_cons_self _ _))

/-- All elements a sorted list drops at the head run have strictly larger key. -/
theorem dropWhile_key_gt [LinearOrder κ] [DecidableEq κ] (key : α → κ) (x : α) (xs : List α)
    (hx : ∀ y ∈ xs, key x ≤ key y) (hxs : xs.Pairwise (fun a b => key a ≤ key b)) :
    ∀ z ∈ xs.dropWhile (fun y => key y == key x), key x < key z := by
  intro z hz
  rcases hd : xs.dropWhile (fun y => key y == key x) with _ | ⟨y, d'⟩
  · rw [hd] at hz
    exact absurd hz (List.not_mem_nil z)
  · rw [hd] at hz
    have hsuf : (y :: d') <:+ xs := hd ▸ List.dropWhile_suffix _
    have hy : (key y == key x) = false := dropWhile_head_not _ xs y d' hd
    have hyne : key y ≠ key x := by simpa using hy
    have hylt : key x < key y :=
      lt_of_le_of_ne (hx y (hsuf.sublist.subset (List.mem_cons_self _ _))) (Ne.symm hyne)
    rcases List.mem_cons.mp hz with rfl | hz'
    · exact hylt
    · have hpd : (y :: d').Pairwise (fun a b => key a ≤ key b) := hxs.sublist hsuf.sublist
      exact lt_of_lt_of_le hylt ((List.pairwise_cons.mp hpd).1 z hz')

/-- Each group of a sorted list is exactly the filter of the list at the
group's (constant) key; in particular it contains every element with that key. -/
theorem group_of_sorted [LinearOrder κ] [DecidableEq κ] (key : α → κ) :
    ∀ (n : Nat) (l : List α), l.length ≤ n → l.Pairwise (fun a b => key a ≤ key b) →
      ∀ g ∈ linear_group_by_key key l,
        g ≠ [] ∧ ∃ kv, (∀ x ∈ g, key x = kv) ∧ g = l.filter (fun z => key z == kv) := by
  intro n
  induction n with
  | zero =>
    intro l hl _ g hg
    have : l = [] := List.length_eq_zero.mp (Nat.le_zero.mp hl)
    subst this
    exact absurd hg (by simp [linear_group_by_key])
  | succ n ih =>
    intro l hl hsort g hg
    rcases l with _ | ⟨x, xs⟩
    · exact absurd hg (by simp [linear_group_by_key])
    rcases List.pairwise_cons.mp hsort with ⟨hx, hxs⟩
    rw [linear_group_by_key_cons] at hg
    have hgt := dropWhile_key_gt key x xs hx hxs
    have htk : ∀ z ∈ xs.takeWhile (fun y => key y == key x), key z = key x := by
      intro z hz
      have h1 := List.mem_takeWhile_imp hz
      simpa using h1
    have hdnil : (xs.dropWhile (fun y => key y == key x)).filter
        (fun z => key z == key x) = [] := by
      apply List.filter_eq_nil_iff.mpr
      intro z hz
      simpa using ne_of_gt (hgt z hz)
    have htself : (xs.takeWhile (fun y => key y == key x)).filter
        (fun z => key z == key x) = xs.takeWhile (fun y => key y == key x) := by
      apply List.filter_eq_self.mpr
      intro z hz
      have h1 := List.mem_takeWhile_imp hz
      exact h1
    have hsplit : xs.takeWhile (fun y => key y == key x)
        ++ xs.dropWhile (fun y => key y == key x) = xs :=
      List.takeWhile_append_dropWhile _ _
    rcases List.mem_cons.mp hg with rfl | hgrest
    · refine ⟨by simp, key x, ?_, ?_⟩
      · intro z hz
        rcases List.mem_cons.mp hz with rfl | hz'
        · rfl
        · exact htk z hz'
      · have hfxs : List.filter (fun z => key z == key x) xs
            = xs.takeWhile (fun y => key y == key x) := by
          conv_lhs => rw [← hsplit]
          rw [List.filter_append, hdnil, htself, List.append_nil]
        rw [List.filter_cons_of_pos (by simp), hfxs]
    · have hdlen : (xs.dropWhile (fun y => key y == key x)).length ≤ n := by
        have h1 := (List.dropWhile_suffix (l := xs)
          (fun y => key y == key x)).sublist.length_le
        simp only [List.length_cons] at hl
        omega
      have hdsort : (xs.dropWhile (fun y => key y == key x)).Pairwise
          (fun a b => key a ≤ key b) :=
        hxs.sublist (List.dropWhile_suffix _).sublist
      obtain ⟨hne, kv, hall, hfil⟩ := ih _ hdlen hdsort g hgrest
      refine ⟨hne, kv, hall, ?_⟩
      have hkv : key x < kv := by
        rcases g with _ | ⟨w, g'⟩
        · exact absurd rfl hne
        · have hw : w ∈ xs.dropWhile (fun y => key y == key x) :=
            List.mem_of_mem_filter (hfil ▸ List.mem_cons_self w g')
          exact hall w (List.mem_cons_self _ _) ▸ hgt w hw
      have hxkv : (key x == kv) = false := by simpa using ne_of_lt hkv
      have htnil : (xs.takeWhile (fun y => key y == key x)).filter
          (fun z => key z == kv) = [] := by
        apply List.filter_eq_nil_iff.mpr
        intro z hz
        have hzx : key z = key x := htk z hz
        have : key z ≠ kv := by rw [hzx]; exact ne_of_lt hkv
        simpa using this
      rw [List.filter_cons_of_neg (by simp [hxkv]), ← hsplit, List.filter_append, htnil,
        List.nil_append, hfil]

/-! ## Permutation utilities -/

theorem apply_permutations_length :
    ∀ (perm : List Nat) (v w : List β), apply_permutations perm v = some w →
      w.length = perm.length := by
  intro perm
  induction perm with
  | nil =>
    intro v w h
    simp only [apply_permutations, Option.some.injEq] at h
    simp [← h]
  | cons i is ih =>
    intro v w h
    rcases hvi : v[i]? with _ | x
    · simp [apply_permutations, hvi] at h
    · rcases hrest : apply_permutations is v with _ | rest
      · simp [apply_permutations, hvi, hrest] at h
      · simp only [apply_permutations, hvi, hrest, Option.some.injEq] at h
        subst h
        simp [ih v rest hrest]

theorem apply_permutations_some (v : List β) :
    ∀ (perm : List Nat), (∀ i ∈ perm, i < v.length) →
      ∃ w, apply_permutations perm v = some w ∧ w.length = perm.length
        ∧ ∀ (j i : Nat), perm[j]? = some i → w[j]? = v[i]? := by
  intro perm
  induction perm with
  | nil =>
    intro _
    refine ⟨[], rfl, rfl, ?_⟩
    intro j i h
    rw [List.getElem?_nil] at h
    cases h
  | cons i is ih =>
    intro h
    obtain ⟨w, hw, hlen, hidx⟩ := ih (fun j hj => h j (List.mem_cons_of_mem _ hj))
    have hi : i < v.length := h i (List.mem_cons_self _ _)
    obtain ⟨x, hx⟩ : ∃ x, v[i]? = some x := ⟨_, List.getElem?_eq_getElem hi⟩
    refine ⟨x :: w, ?_, by simp [hlen], ?_⟩
    · simp [apply_permutations, hx, hw]
    · intro j i' hj
      rcases j with _ | j
      · simp only [List.getElem?_cons_zero, Option.some.injEq] at hj
        subst hj
        simpa using hx.symm
      · simp only [List.getElem?_cons_succ] at hj ⊢
        exact hidx j i' hj

/-! ## C9: the permutation utility sorts the columns together -/

/-- **C9.** Any result `perm` of `permutations_unstable_by_key(len, f)` is a
permutation of `[0..len)` whose key sequence `perm.map f` is sorted ascending;
applying it with `apply_permutations` to any vector of length `len` (each of
the five equal-length columns in particular) succeeds and places `v[perm[j]]`
at position `j`, so all columns are re-ordered together, sorted by the key. -/
theorem permutations_apply_sorts [LinearOrder κ] (len : Nat) (f : Nat → κ) (perm : List Nat)
    (h : permutations_unstable_by_key_spec len f perm) :
    perm.Perm (List.range len)
    ∧ (perm.map f).Pairwise (fun a b => a ≤ b)
    ∧ ∀ (β : Type) (v : List β), v.length = len →
        ∃ w, apply_permutations perm v = some w ∧ w.length = perm.length
          ∧ ∀ (j i : Nat), perm[j]? = some i → w[j]? = v[i]? := by
  obtain ⟨hperm, hsort⟩ := h
  refine ⟨hperm, List.pairwise_map.mpr hsort, ?_⟩
  intro β v hv
  apply apply_permutations_some
  intro i hi
  have hmem : i ∈ List.range len := hperm.subset hi
  rw [hv]
  exact List.mem_range.mp hmem

/-- Closed instance of `permutations_apply_sorts`: the admissible permutation
`[2,1,0]` of `range 3` for the key `i ↦ 3 − i`, applied to `["a","b","c"]`. -/
theorem permutations_apply_sorts_witness :
    ∃ w, apply_permutations [2, 1, 0] ["a", "b", "c"] = some w
      ∧ w.length = ([2, 1, 0] : List Nat).length
      ∧ ∀ (j i : Nat), ([2, 1, 0] : List Nat)[j]? = some i → w[j]? = ["a", "b", "c"][i]? :=
  (permutations_apply_sorts 3 (fun i => 3 - i) [2, 1, 0]
    ⟨by decide, by decide⟩).2.2 String ["a", "b", "c"] rfl

/-! ## C8: the builder's first sorting step -/

/-- **C8 fails as stated.** `par_sort_unstable_by_key` promises no stability:
for the two equal-id input tuples below, the key-sorted *reversed* output
satisfies the sort's specification, and the single per-document group then
lists the two tuples in the opposite of their input order. -/
theorem stable_sort_cex :
    sort_unstable_spec Prod.fst
      [((0 : DocumentId), (⟨0, 0, 0, 0, false⟩ : TmpMatch)), (0, ⟨1, 0, 0, 0, false⟩)]
      [((0 : DocumentId), (⟨1, 0, 0, 0, false⟩ : TmpMatch)), (0, ⟨0, 0, 0, 0, false⟩)]
    ∧ linear_group_by_key Prod.fst
        [((0 : DocumentId), (⟨1, 0, 0, 0, false⟩ : TmpMatch)), (0, ⟨0, 0, 0, 0, false⟩)]
        = [[(0, ⟨1, 0, 0, 0, false⟩), (0, ⟨0, 0, 0, 0, false⟩)]]
    ∧ [((0 : DocumentId), (⟨1, 0, 0, 0, false⟩ : TmpMatch)), (0, ⟨0, 0, 0, 0, false⟩)]
        ≠ [((0 : DocumentId), (⟨0, 0, 0, 0, false⟩ : TmpMatch)), (0, ⟨1, 0, 0, 0, false⟩)] :=
  ⟨⟨by decide, by decide⟩, by decide, by decide⟩

/-- **C8 (amended).** The builder's first step sorts both streams by
`DocumentId` ascending with an *unstable* sort: every admissible output is a
sorted permutation of the input, so each per-document group holds exactly the
input tuples carrying that id — as a multiset, not necessarily in input
order. -/
theorem sort_groups_content («matches» ms : List (DocumentId × TmpMatch))
    (h : sort_unstable_spec Prod.fst «matches» ms)
    (g : List (DocumentId × TmpMatch)) (hg : g ∈ linear_group_by_key Prod.fst ms) :
    g ≠ [] ∧ ∃ dId : DocumentId, (∀ x ∈ g, x.1 = dId)
      ∧ g.Perm («matches».filter (fun x => x.1 == dId)) := by
  obtain ⟨hne, kv, hall, hfil⟩ := group_of_sorted Prod.fst ms.length ms le_rfl h.2 g hg
  refine ⟨hne, kv, hall, ?_⟩
  rw [hfil]
  exact h.1.filter _

/-- Closed instance of `sort_groups_content` on a one-tuple stream. -/
theorem sort_groups_content_witness :
    ∃ dId : DocumentId,
      (∀ x ∈ [((7 : DocumentId), (⟨1, 2, 3, 4, true⟩ : TmpMatch))], x.1 = dId)
      ∧ [((7 : DocumentId), (⟨1, 2, 3, 4, true⟩ : TmpMatch))].Perm
          ([((7 : DocumentId), (⟨1, 2, 3, 4, true⟩ : TmpMatch))].filter
            (fun x => x.1 == dId)) :=
  (sort_groups_content [((7 : DocumentId), (⟨1, 2, 3, 4, true⟩ : TmpMatch))]
    [((7 : DocumentId), (⟨1, 2, 3, 4, true⟩ : TmpMatch))]
    ⟨by decide, by decide⟩
    [((7 : DocumentId), (⟨1, 2, 3, 4, true⟩ : TmpMatch))] (by decide)).2

/-! ## C7: column-length parity -/

/-- **C7.** Every `RawDocument` produced by `raw_documents_from` has its five
match columns of one common length, equal to the number of match tuples
carrying the document's id; applying one permutation to each of the five
columns via `apply_permutations` again leaves the five lengths identical. -/
theorem column_length_parity («matches» : List (DocumentId × TmpMatch))
    (highlights : List (DocumentId × Highlight)) (out : List RawDocument)
    (h : raw_documents_from_rel «matches» highlights out)
    (doc : RawDocument) (hdoc : doc ∈ out) :
    (doc.query_index.length = «matches».countP (fun p => p.1 == doc.id)
      ∧ doc.distance.length = doc.query_index.length
      ∧ doc.attr.length = doc.query_index.length
      ∧ doc.word_index.length = doc.query_index.length
      ∧ doc.is_exact.length = doc.query_index.length)
    ∧ ∀ (perm : List Nat) (qc dc ac wc : List Nat) (ec : List Bool),
        apply_permutations perm doc.query_index = some qc →
        apply_permutations perm doc.distance = some dc →
        apply_permutations perm doc.attr = some ac →
        apply_permutations perm doc.word_index = some wc →
        apply_permutations perm doc.is_exact = some ec →
        qc.length = dc.length ∧ dc.length = ac.length ∧ ac.length = wc.length
          ∧ wc.length = ec.length := by
  obtain ⟨ms, hs, hms, hhs, hout⟩ := h
  subst hout
  rcases List.mem_map.mp hdoc with ⟨⟨mg, hg⟩, hz, rfl⟩
  have hmg : mg ∈ linear_group_by_key Prod.fst ms := (List.of_mem_zip hz).1
  obtain ⟨hne, kv, hall, hfil⟩ := group_of_sorted Prod.fst ms.length ms le_rfl hms.2 mg hmg
  constructor
  · have hid : (buildRawDocument mg hg).id = kv := by
      rcases mg with _ | ⟨x, mg'⟩
      · exact absurd rfl hne
      · show (((x :: mg').head?).map Prod.fst).getD 0 = kv
        simp only [List.head?_cons, Option.map_some', Option.getD_some]
        exact hall x (List.mem_cons_self _ _)
    have hcnt : mg.length = «matches».countP (fun p => p.1 == kv) := by
      rw [hfil, ← List.countP_eq_length_filter, hms.1.countP_eq]
    refine ⟨?_, ?_, ?_, ?_, ?_⟩
    · rw [hid]
      simp only [buildRawDocument, List.length_map]
      exact hcnt
    · simp only [buildRawDocument, List.length_map]
    · simp only [buildRawDocument, List.length_map]
    · simp only [buildRawDocument, List.length_map]
    · simp only [buildRawDocument, List.length_map]
  · intro perm qc dc ac wc ec h1 h2 h3 h4 h5
    have l1 := apply_permutations_length perm _ _ h1
    have l2 := apply_permutations_length perm _ _ h2
    have l3 := apply_permutations_length perm _ _ h3
    have l4 := apply_permutations_length perm _ _ h4
    have l5 := apply_permutations_length perm _ _ h5
    exact ⟨by rw [l1, l2], by rw [l2, l3], by rw [l3, l4], by rw [l4, l5]⟩

/-- Closed instance of `column_length_parity` on a one-match input. -/
theorem column_length_parity_witness :
    (buildRawDocument [((0 : DocumentId), (⟨1, 0, 2, 3, true⟩ : TmpMatch))]
        [((0 : DocumentId), (⟨2, 5, 7⟩ : Highlight))]).query_index.length
      = [((0 : DocumentId), (⟨1, 0, 2, 3, true⟩ : TmpMatch))].countP
          (fun p => p.1 == (buildRawDocument [((0 : DocumentId), (⟨1, 0, 2, 3, true⟩ : TmpMatch))]
            [((0 : DocumentId), (⟨2, 5, 7⟩ : Highlight))]).id) :=
  (column_length_parity [(0, ⟨1, 0, 2, 3, true⟩)] [(0, ⟨2, 5, 7⟩)]
    (raw_documents_from_sorted [(0, ⟨1, 0, 2, 3, true⟩)] [(0, ⟨2, 5, 7⟩)])
    ⟨[(0, ⟨1, 0, 2, 3, true⟩)], [(0, ⟨2, 5, 7⟩)], ⟨by decide, by decide⟩,
      ⟨by decide, by decide⟩, rfl⟩
    (buildRawDocument [(0, ⟨1, 0, 2, 3, true⟩)] [(0, ⟨2, 5, 7⟩)]) (by decide)).1.1

end MeiliDB
